import Mathlib

/-!
Verification development for the `classify-imports` library: a shallow
embedding in Lean 4 of the module-provenance classifier
(`classify_base`, `_find_local`, `_get_app` from `classify_imports.py`),
the import-statement data model (`Import`, `ImportFrom` and their keys,
sort keys, equality, `split`, text rendering), and the `sort` bucketing
algorithm, together with theorems checking the specification's claims.

Machine-level conventions of the embedding:

* Python strings are Lean `String`s, manipulated exclusively through their
  underlying `List Char` (`String.data`), so every definition is
  executable and kernel-reducible.  Python's `<` on strings is
  code-point-lexicographic comparison, embedded as `lexLt charLt` below;
  Python's tuple `<` (used on `sort_key` tuples) is the same lexicographic
  scheme one level up.  `str.lower()` is embedded as ASCII lowering
  (`pyLower`), which agrees with Python on the ASCII identifiers that
  occur in import statements.
* The filesystem is an explicit state `FS` giving the results of
  `os.lstat`, `os.listdir` and `os.stat`; `none` models an `OSError`
  (for `listdir`, a raised error that `_find_local` does not catch).
* Fallible Python code (code that may raise) is embedded as
  `Option`-returning functions: a `none` result models an exception
  propagating to the caller.
* `sys.stdlib_module_names` is an explicit parameter (a list of names).
-/

/-! ## Generic lexicographic strict order on lists -/

/-- Lexicographic strict comparison of lists by a strict element
comparison, as Python compares strings (by code points) and tuples
(componentwise); a strict prefix is smaller. -/
def lexLt (ltE : α → α → Bool) : List α → List α → Bool
  | [], [] => false
  | [], _ :: _ => true
  | _ :: _, [] => false
  | a :: as, b :: bs =>
    if ltE a b then true else if ltE b a then false else lexLt ltE as bs

theorem lexLt_trans {ltE : α → α → Bool}
    (ht : ∀ a b c, ltE a b = true → ltE b c = true → ltE a c = true)
    (hc : ∀ a b, ltE a b = false → ltE b a = false → a = b) :
    ∀ x y z, lexLt ltE x y = true → lexLt ltE y z = true →
      lexLt ltE x z = true := by
  intro x
  induction x with
  | nil =>
    intro y z hxy hyz
    cases y with
    | nil => simp [lexLt] at hxy
    | cons b bs =>
      cases z with
      | nil => simp [lexLt] at hyz
      | cons c cs => simp [lexLt]
  | cons a as ih =>
    intro y z hxy hyz
    cases y with
    | nil => simp [lexLt] at hxy
    | cons b bs =>
      cases z with
      | nil => simp [lexLt] at hyz
      | cons c cs =>
        simp only [lexLt] at hxy hyz ⊢
        by_cases hab : ltE a b = true
        · by_cases hbc : ltE b c = true
          · simp [ht a b c hab hbc]
          · by_cases hcb : ltE c b = true
            · rw [if_neg hbc, if_pos hcb] at hyz
              simp at hyz
            · have heq : b = c :=
                hc b c (by simpa using hbc) (by simpa using hcb)
              subst heq
              simp [hab]
        · by_cases hba : ltE b a = true
          · rw [if_neg hab, if_pos hba] at hxy
            simp at hxy
          · have heq : a = b :=
              hc a b (by simpa using hab) (by simpa using hba)
            subst heq
            rw [if_neg hab, if_neg hba] at hxy
            by_cases hac : ltE a c = true
            · simp [hac]
            · by_cases hca : ltE c a = true
              · rw [if_neg hac, if_pos hca] at hyz
                simp at hyz
              · rw [if_neg hac, if_neg hca] at hyz ⊢
                exact ih bs cs hxy hyz

theorem lexLt_asymm {ltE : α → α → Bool}
    (ha : ∀ a b, ltE a b = true → ltE b a = true → False) :
    ∀ x y, lexLt ltE x y = true → lexLt ltE y x = true → False := by
  intro x
  induction x with
  | nil =>
    intro y hxy hyx
    cases y with
    | nil => simp [lexLt] at hxy
    | cons b bs => simp [lexLt] at hyx
  | cons a as ih =>
    intro y hxy hyx
    cases y with
    | nil => simp [lexLt] at hxy
    | cons b bs =>
      simp only [lexLt] at hxy hyx
      by_cases hab : ltE a b = true
      · by_cases hba : ltE b a = true
        · exact ha a b hab hba
        · simp [hab, hba] at hyx
      · by_cases hba : ltE b a = true
        · simp [hab, hba] at hxy
        · simp only [hab, hba, if_false] at hxy hyx
          exact ih bs hxy hyx

theorem lexLt_conn {ltE : α → α → Bool}
    (hc : ∀ a b, ltE a b = false → ltE b a = false → a = b) :
    ∀ x y, lexLt ltE x y = false → lexLt ltE y x = false → x = y := by
  intro x
  induction x with
  | nil =>
    intro y hxy _
    cases y with
    | nil => rfl
    | cons b bs => simp [lexLt] at hxy
  | cons a as ih =>
    intro y hxy hyx
    cases y with
    | nil => simp [lexLt] at hyx
    | cons b bs =>
      simp only [lexLt] at hxy hyx
      by_cases hab : ltE a b = true
      · simp [hab] at hxy
      · by_cases hba : ltE b a = true
        · simp [hab, hba] at hyx
        · have hab2 : a = b := hc a b (by simpa using hab) (by simpa using hba)
          subst hab2
          simp only [hab, if_false] at hxy hyx
          rw [ih bs hxy hyx]

/-! ## Python string primitives -/

/-- Python's `<` comparison on characters: by code point. -/
def charLt (a b : Char) : Bool := decide (a < b)

theorem charLt_trans (a b c : Char) :
    charLt a b = true → charLt b c = true → charLt a c = true := by
  simp only [charLt, decide_eq_true_eq]
  exact lt_trans

theorem charLt_asymm (a b : Char) :
    charLt a b = true → charLt b a = true → False := by
  simp only [charLt, decide_eq_true_eq]
  exact fun h h2 => absurd h2 (lt_asymm h)

theorem charLt_conn (a b : Char) :
    charLt a b = false → charLt b a = false → a = b := by
  simp only [charLt, decide_eq_false_iff_not]
  exact fun h h2 => le_antisymm (not_lt.mp h2) (not_lt.mp h)

/-- Python's `<` on strings: code-point-lexicographic. -/
def strLt (a b : String) : Bool := lexLt charLt a.data b.data

theorem strLt_trans (a b c : String) :
    strLt a b = true → strLt b c = true → strLt a c = true :=
  lexLt_trans charLt_trans charLt_conn a.data b.data c.data

theorem strLt_asymm (a b : String) :
    strLt a b = true → strLt b a = true → False :=
  lexLt_asymm charLt_asymm a.data b.data

theorem strLt_conn (a b : String) :
    strLt a b = false → strLt b a = false → a = b := fun h h2 =>
  String.ext (lexLt_conn charLt_conn a.data b.data h h2)

/-- The non-strict comparison induced by `strLt`, as Python's
`sorted` effectively orders strings. -/
def strLe (a b : String) : Bool := !strLt b a

/-- `strLe` as a relation, for sorting. -/
def strLeR (a b : String) : Prop := strLe a b = true

instance : DecidableRel strLeR := fun a b => instDecidableEqBool (strLe a b) true

instance : IsTotal String strLeR where
  total a b := by
    simp only [strLeR, strLe, Bool.not_eq_true']
    rcases h : strLt b a with _ | _
    · exact Or.inl rfl
    · rcases h2 : strLt a b with _ | _
      · exact Or.inr rfl
      · exact absurd (strLt_asymm a b h2 h) id

instance : IsTrans String strLeR where
  trans a b c hab hbc := by
    simp only [strLeR, strLe, Bool.not_eq_true'] at hab hbc ⊢
    rcases h : strLt c a with _ | _
    · rfl
    · rcases h2 : strLt a b with _ | _
      · rcases h3 : strLt c b with _ | _
        · exact absurd (strLt_conn a b h2 hab ▸ h3) (by simp [h])
        · exact absurd h3 (by simp [hbc])
      · exact absurd (strLt_trans c a b h h2) (by simp [hbc])

/-- ASCII lowering of one character, as Python's `str.lower()` acts on the
ASCII range (sufficient for the identifiers in import statements). -/
def pyLower (c : Char) : Char :=
  if 'A' ≤ c ∧ c ≤ 'Z' then Char.ofNat (c.toNat + 32) else c

/-- Python's `str.lower()` (ASCII range). -/
def strLower (s : String) : String := ⟨s.data.map pyLower⟩

/-- Python's `', '.join(...)`. -/
def commaJoin : List String → String
  | [] => ""
  | [x] => x
  | x :: y :: rest => x ++ ", " ++ commaJoin (y :: rest)

/-! ## The classifier: data model -/

/-- The four provenance categories (`Classified` in
`classify_imports.py`). -/
inductive Classified where
  | FUTURE
  | BUILTIN
  | THIRD_PARTY
  | APPLICATION
  deriving DecidableEq, Repr

/-- `Classified.order`: the fixed output order of categories. -/
def Classified.order : List Classified :=
  [.FUTURE, .BUILTIN, .THIRD_PARTY, .APPLICATION]

/-- `_STATIC_CLASSIFICATIONS`: the static name table consulted first by
`classify_base` (dict translated to a decision chain over its four
distinct keys). -/
def _STATIC_CLASSIFICATIONS (base : String) : Option Classified :=
  if base = "__future__" then some .FUTURE
  else if base = "__main__" then some .APPLICATION
  else if base = "distutils" then some .THIRD_PARTY
  else if base = "" then some .APPLICATION
  else none

/-- `Settings`: classifier configuration.  The `frozenset` of
unclassifiable modules is embedded as a list used only through
membership. -/
structure Settings where
  application_directories : List String := ["."]
  unclassifiable_application_modules : List String := []
  deriving DecidableEq, Repr

/-- The `os.lstat` file kind distinctions used by `_find_local`
(`stat.S_ISDIR`, `stat.S_ISREG`; a symlink is neither). -/
inductive FileMode where
  | dir
  | reg
  | symlink
  | other
  deriving DecidableEq, Repr

/-- Explicit filesystem state.  `lstat p = none` and `statKey p = none`
model `OSError`; `listdir p = none` models `os.listdir` raising (which
`_find_local` does not catch).  `statKey` returns `os.stat`'s
`(st_ino, st_dev)` pair. -/
structure FS where
  lstat : String → Option FileMode
  listdir : String → Option (List String)
  statKey : String → Option (Nat × Nat)

/-- `os.path.join` for one component (POSIX behavior: an absolute second
component replaces the first). -/
def joinPath (p base : String) : String :=
  if base.data.head? = some '/' then base
  else if p = "" then base
  else if p.data.getLast? = some '/' then p ++ base
  else p ++ "/" ++ base

/-- `_path_key`: normalize `''` to `'.'` and return the path together
with its `(st_ino, st_dev)` identity; `none` when `os.stat` fails. -/
def _path_key (fs : FS) (path : String) : Option (String × (Nat × Nat)) :=
  let path := if path = "" then "." else path
  match fs.statKey path with
  | some key => some (path, key)
  | none => none

/-- Loop of `_get_app`: keep each directory that stats successfully and
whose `(st_ino, st_dev)` identity was not already seen. -/
def _get_app_go (fs : FS) : List String → List (Nat × Nat) → List String
  | [], _ => []
  | p :: ps, seen =>
    match _path_key fs p with
    | none => _get_app_go fs ps seen
    | some (p2, key) =>
      if key ∈ seen then _get_app_go fs ps seen
      else p2 :: _get_app_go fs ps (key :: seen)

/-- `_get_app`: filter the configured application directories down to the
existing, de-duplicated ones. -/
def _get_app (fs : FS) (app_dirs : List String) : List String :=
  _get_app_go fs app_dirs []

/-- `_find_local`: probe each directory for a same-named non-empty
subdirectory or a same-named regular `base.py` file.  `some b` is the
returned boolean; `none` models an uncaught `os.listdir` error.  As in
the source, a successful `lstat` of `base.py` ends the loop with
`S_ISREG`'s verdict, and `lstat` errors fall through. -/
def _find_local (fs : FS) : List String → String → Option Bool
  | [], _ => some false
  | p :: ps, base =>
    let p_dir := joinPath p base
    let fileCheck : Option Bool :=
      match fs.lstat (joinPath p (base ++ ".py")) with
      | some m => some (m = FileMode.reg)
      | none => _find_local fs ps base
    match fs.lstat p_dir with
    | some FileMode.dir =>
      match fs.listdir p_dir with
      | none => none
      | some entries => if entries.isEmpty then fileCheck else some true
    | _ => fileCheck

/-- `classify_base` (the `sys.version_info >= (3, 10)` definition): static
table, then `sys.stdlib_module_names`, then the
`unclassifiable_application_modules` override or the local-file probe,
else third party.  `stdlib` is the ambient `sys.stdlib_module_names`;
`none` models a propagated exception from the probe. -/
def classify_base (fs : FS) (stdlib : List String) (base : String)
    (settings : Settings) : Option Classified :=
  match _STATIC_CLASSIFICATIONS base with
  | some c => some c
  | none =>
    if base ∈ stdlib then some .BUILTIN
    else if base ∈ settings.unclassifiable_application_modules then
      some .APPLICATION
    else
      match _find_local fs (_get_app fs settings.application_directories) base with
      | none => none
      | some true => some .APPLICATION
      | some false => some .THIRD_PARTY

/-! ## The import-statement data model -/

/-- One `ast.alias`: an imported (possibly dotted) name with an optional
`as` alias. -/
structure Alias where
  name : String
  asname : Option String
  deriving DecidableEq, Repr

/-- The `ast.Import` node wrapped by the `Import` class: its list of
aliases. -/
structure ImportNode where
  names : List Alias
  deriving DecidableEq, Repr

/-- The `ast.ImportFrom` node wrapped by the `ImportFrom` class: optional
absolute module name (`none` for `from . import x`), aliases, and the
count of leading relative-import dots (`level`). -/
structure ImportFromNode where
  module : Option String
  names : List Alias
  level : Nat
  deriving DecidableEq, Repr

/-- A statement object: either an `Import` or an `ImportFrom` instance. -/
inductive ImportObj where
  | Import (node : ImportNode)
  | ImportFrom (node : ImportFromNode)
  deriving DecidableEq, Repr

/-- The first alias of a node (`node.names[0]`); well-formed nodes always
have at least one name, the default only keeps the embedding total. -/
def headAlias (names : List Alias) : Alias := names.headD ⟨"", none⟩

/-- `str.partition('.')[0]`: the text before the first dot. -/
def pyPartitionHead (s : String) : String := ⟨s.data.takeWhile (· ≠ '.')⟩

/-- The `ImportFrom.module` property: `'.' * level` followed by the
(possibly absent) absolute module name. -/
def fromModule (n : ImportFromNode) : String :=
  ⟨List.replicate n.level '.'⟩ ++ n.module.getD ""

/-- The `module` property of either statement class. -/
def ImportObj.module : ImportObj → String
  | .Import n => (headAlias n.names).name
  | .ImportFrom n => fromModule n

/-- The `module_base` property: first dotted segment of `module`. -/
def ImportObj.module_base (o : ImportObj) : String := pyPartitionHead o.module

/-- `Import.key`: an `ImportKey` of the first alias's name and its alias
(empty string when absent). -/
def ImportNode.key (n : ImportNode) : String × String :=
  ((headAlias n.names).name, (headAlias n.names).asname.getD "")

/-- `ImportFrom.key`: an `ImportFromKey` of the module property, the first
alias's name, and its alias (empty string when absent). -/
def ImportFromNode.key (n : ImportFromNode) : String × String × String :=
  (fromModule n, (headAlias n.names).name, (headAlias n.names).asname.getD "")

/-- The `sort_key` property of both classes, as the tuple of strings the
source builds (`'0'`/`'1'` discriminator, case-folded fields, then
original-case fields); embedded as a list so keys of the two statement
kinds remain comparable the way Python compares tuples. -/
def ImportObj.sort_key : ImportObj → List String
  | .Import n =>
    ["0", strLower n.key.1, strLower n.key.2, n.key.1, n.key.2]
  | .ImportFrom n =>
    ["1", strLower n.key.1, strLower n.key.2.1, strLower n.key.2.2,
     n.key.1, n.key.2.1, n.key.2.2]

/-- `isinstance(obj, Import)`. -/
def ImportObj.isPlain : ImportObj → Bool
  | .Import _ => true
  | .ImportFrom _ => false

/-- The `__eq__` methods of both classes: same concrete type and equal
`key`; `False` across types. -/
def ImportObj.eqPy : ImportObj → ImportObj → Bool
  | .Import a, .Import b => decide (a.key = b.key)
  | .ImportFrom a, .ImportFrom b => decide (a.key = b.key)
  | _, _ => false

/-- The `__hash__` methods: `hash(self.key)`, embedded as the key itself
tagged by the key type (equal keys hash equal). -/
def ImportObj.hashPy : ImportObj → (String × String) ⊕ (String × String × String)
  | .Import a => .inl a.key
  | .ImportFrom a => .inr a.key

/-- `Import.split`: the unchanged statement when it has at most one name,
else one fresh single-alias node per alias, in order. -/
def ImportNode.split (n : ImportNode) : List ImportNode :=
  if n.names.length > 1 then n.names.map (fun a => ⟨[a]⟩) else [n]

/-- `ImportFrom.split`: like `Import.split`, each piece keeping the
original `module` and `level`. -/
def ImportFromNode.split (n : ImportFromNode) : List ImportFromNode :=
  if n.names.length > 1 then n.names.map (fun a => ⟨n.module, [a], n.level⟩)
  else [n]

/-- `split()` on either statement class (the generator, materialized). -/
def ImportObj.split : ImportObj → List ImportObj
  | .Import n => n.split.map .Import
  | .ImportFrom n => n.split.map .ImportFrom

/-! ## Rendering -/

/-- `_ast_alias_to_s`: `"name"`, or `"name as alias"` when the alias is
present and non-empty (Python tests the alias's truthiness). -/
def _ast_alias_to_s (a : Alias) : String :=
  if a.asname.getD "" = "" then a.name
  else a.name ++ " as " ++ a.asname.getD ""

/-- `_format_import_import` (the renderer behind `to_text`/`__str__`):
display forms sorted alphabetically, joined with `", "`, one trailing
newline. -/
def _format_import_import (names : List Alias) : String :=
  "import " ++
    commaJoin (List.insertionSort strLeR (names.map _ast_alias_to_s)) ++ "\n"

/-- `_format_from_import`: the from-import renderer. -/
def _format_from_import (module : String) (names : List Alias) : String :=
  "from " ++ module ++ " import " ++
    commaJoin (List.insertionSort strLeR (names.map _ast_alias_to_s)) ++ "\n"

/-- `to_text` / `render()`: canonical text of a statement. -/
def to_text : ImportObj → String
  | .Import n => _format_import_import n.names
  | .ImportFrom n => _format_from_import (fromModule n) n.names

/-! ## The statement parser

The implementation delegates parsing to the environment's syntax parser
(`ast.parse`); the spec treats that parser as an external collaborator.
The model below implements the spec's description of that capability for
single import statements. -/

/-- Whitespace for token separation. -/
def isWsChar (c : Char) : Bool :=
  c = ' ' ∨ c = '\t' ∨ c = '\n' ∨ c = '\r'

/-- Tokenizer loop: maximal runs of non-whitespace, non-comma characters
are tokens; each comma is its own token; `acc` is the current token's
characters, reversed. -/
def tokenizeAux : List Char → List Char → List String
  | [], acc => if acc.isEmpty then [] else [⟨acc.reverse⟩]
  | c :: cs, acc =>
    if isWsChar c then
      (if acc.isEmpty then [] else [⟨acc.reverse⟩]) ++ tokenizeAux cs []
    else if c = ',' then
      (if acc.isEmpty then [] else [⟨acc.reverse⟩]) ++ "," :: tokenizeAux cs []
    else tokenizeAux cs (c :: acc)

/-- Token stream of a source line. -/
def tokenize (s : String) : List String := tokenizeAux s.data []

/-- A token usable as a (dotted) name: non-empty, not one of the
grammar's keywords, and free of separators. -/
def isNameTok (t : String) : Bool :=
  !t.data.isEmpty && t ≠ "import" && t ≠ "from" && t ≠ "as" &&
    t.data.all (fun c => !isWsChar c && c ≠ ',')

/-- Modelled from the spec: the alias-list part of the external parsing
capability — an ordered, comma-separated list of names, each with an
optional `as` alias. -/
def parseAliases : List String → Option (List Alias)
  | [n] => if isNameTok n then some [⟨n, none⟩] else none
  | [n, "as", a] =>
    if isNameTok n && isNameTok a then some [⟨n, some a⟩] else none
  | n :: "as" :: a :: "," :: rest =>
    if isNameTok n && isNameTok a then
      (parseAliases rest).map (⟨n, some a⟩ :: ·)
    else none
  | n :: "," :: rest =>
    if isNameTok n then (parseAliases rest).map (⟨n, none⟩ :: ·) else none
  | _ => none

/-- Modelled from the spec: the module portion of a from-import as the
external parser reports it — a leading-dot count and an optional absolute
module name (absent only for pure-relative `from . import x` forms). -/
def parseFromModule (t : String) : Option (Nat × Option String) :=
  let dots := (t.data.takeWhile (· = '.')).length
  let rest : String := ⟨t.data.dropWhile (· = '.')⟩
  if rest = "" then
    if dots = 0 then none else some (dots, none)
  else if isNameTok rest then some (dots, some rest)
  else none

/-- Modelled from the spec: `import_obj_from_str` — the external
syntax-parsing capability applied to one source line, dispatched to the
matching statement class; `none` models the immediate construction-time
error on text that is not a single import statement of either shape. -/
def import_obj_from_str (s : String) : Option ImportObj :=
  match tokenize s with
  | "import" :: rest => (parseAliases rest).map (fun ns => .Import ⟨ns⟩)
  | "from" :: m :: "import" :: rest =>
    match parseFromModule m, parseAliases rest with
    | some (lvl, mod), some ns => some (.ImportFrom ⟨mod, ns, lvl⟩)
    | _, _ => none
  | _ => none

/-! ## The sorter -/

/-- The within-bucket comparison `sort` uses: Python's tuple `<` on the
`sort_key` properties, made non-strict for sorting. -/
def sortKeyLe (a b : ImportObj) : Bool :=
  !(lexLt strLt (ImportObj.sort_key b) (ImportObj.sort_key a))

/-- `sortKeyLe` as a relation, for sorting. -/
def sortKeyLeR (a b : ImportObj) : Prop := sortKeyLe a b = true

instance : DecidableRel sortKeyLeR := fun a b =>
  instDecidableEqBool (sortKeyLe a b) true

theorem keyLt_trans (x y z : List String) :
    lexLt strLt x y = true → lexLt strLt y z = true →
      lexLt strLt x z = true :=
  lexLt_trans strLt_trans strLt_conn x y z

theorem keyLt_asymm (x y : List String) :
    lexLt strLt x y = true → lexLt strLt y x = true → False :=
  lexLt_asymm strLt_asymm x y

theorem keyLt_conn (x y : List String) :
    lexLt strLt x y = false → lexLt strLt y x = false → x = y :=
  lexLt_conn strLt_conn x y

instance : IsTotal ImportObj sortKeyLeR where
  total a b := by
    simp only [sortKeyLeR, sortKeyLe, Bool.not_eq_true']
    rcases h : lexLt strLt b.sort_key a.sort_key with _ | _
    · exact Or.inl rfl
    · rcases h2 : lexLt strLt a.sort_key b.sort_key with _ | _
      · exact Or.inr rfl
      · exact absurd (keyLt_asymm _ _ h2 h) id

instance : IsTrans ImportObj sortKeyLeR where
  trans a b c hab hbc := by
    simp only [sortKeyLeR, sortKeyLe, Bool.not_eq_true'] at hab hbc ⊢
    rcases h : lexLt strLt c.sort_key a.sort_key with _ | _
    · rfl
    · rcases h2 : lexLt strLt a.sort_key b.sort_key with _ | _
      · rcases h3 : lexLt strLt c.sort_key b.sort_key with _ | _
        · exact absurd (keyLt_conn _ _ h2 hab ▸ h3) (by simp [h])
        · exact absurd h3 (by simp [hbc])
      · exact absurd (keyLt_trans _ _ _ h h2) (by simp [hbc])

/-- The classification `sort` buckets by: `classify_base` of the
statement's `module_base`, with a plain import classified `FUTURE`
re-bucketed to `BUILTIN`. -/
def final_class (fs : FS) (stdlib : List String) (settings : Settings)
    (o : ImportObj) : Option Classified :=
  (classify_base fs stdlib o.module_base settings).map fun tp =>
    if tp = .FUTURE ∧ o.isPlain then .BUILTIN else tp

/-- `sort`: partition the statements by `final_class` (preserving input
order), sort each bucket by `sort_key`, and emit the non-empty buckets in
`Classified.order`.  `none` models an exception propagating out of
`classify_base` for some statement. -/
def sort (fs : FS) (stdlib : List String) (imports : List ImportObj)
    (settings : Settings) : Option (List (List ImportObj)) :=
  if imports.all (fun o => (final_class fs stdlib settings o).isSome) then
    some ((Classified.order.map (fun c =>
      List.insertionSort sortKeyLeR (imports.filter
        (fun o => final_class fs stdlib settings o = some c)))).filter
          (fun l => !l.isEmpty))
  else none

/-! ## Shared concrete instances -/

/-- A filesystem on which every call reports `OSError` (for `listdir`:
raises); nothing is found on it. -/
def fsEmpty : FS := ⟨fun _ => none, fun _ => none, fun _ => none⟩

/-- `from __future__ import absolute_import`. -/
def fromFutureObj : ImportObj :=
  .ImportFrom ⟨some "__future__", [⟨"absolute_import", none⟩], 0⟩

/-- `import __future__`. -/
def importFutureObj : ImportObj := .Import ⟨[⟨"__future__", none⟩]⟩

/-! ## Claim theorems -/

/-- C1: for every filesystem state, runtime stdlib name set and settings,
`classify_base` sends `"__future__"` to `FUTURE`, `""` and `"__main__"`
to `APPLICATION`, and `"distutils"` to `THIRD_PARTY`: the static table is
consulted before any other check, so neither the filesystem nor the
configuration can affect these four names. -/
theorem classify_base_static_overrides (fs : FS) (stdlib : List String)
    (settings : Settings) :
    classify_base fs stdlib "__future__" settings = some .FUTURE ∧
    classify_base fs stdlib "" settings = some .APPLICATION ∧
    classify_base fs stdlib "__main__" settings = some .APPLICATION ∧
    classify_base fs stdlib "distutils" settings = some .THIRD_PARTY :=
  ⟨rfl, rfl, rfl, rfl⟩

/-- C3 (exhibit of the defect): for a base name that is both in the
runtime's stdlib name set and in `unclassifiable_application_modules`,
`classify_base` as written returns `BUILTIN`, because the `≥3.10` branch
tests `sys.stdlib_module_names` before the unclassifiable override —
contradicting the repository's own test
`test_unclassifiable_application_modules_builtin`, which expects
`APPLICATION` for exactly this input. -/
theorem classify_base_stdlib_beats_unclassifiable :
    classify_base fsEmpty ["os"] "os"
      { application_directories := ["."],
        unclassifiable_application_modules := ["os"] } = some .BUILTIN := by
  decide

/-- C9: equality on statements is by concrete type plus the defining
`key` fields; across the two concrete types it is `false`, never an
error; equal statements hash identically; and two statements parsed
independently from identical source text are equal with equal hashes. -/
theorem eq_and_hash_by_key :
    (∀ a b : ImportNode,
      (ImportObj.eqPy (.Import a) (.Import b) = true ↔ a.key = b.key)) ∧
    (∀ a b : ImportFromNode,
      (ImportObj.eqPy (.ImportFrom a) (.ImportFrom b) = true ↔
        a.key = b.key)) ∧
    (∀ (a : ImportNode) (b : ImportFromNode),
      ImportObj.eqPy (.Import a) (.ImportFrom b) = false ∧
      ImportObj.eqPy (.ImportFrom b) (.Import a) = false) ∧
    (∀ a b : ImportObj,
      ImportObj.eqPy a b = true → a.hashPy = b.hashPy) ∧
    (∀ (s : String) (o1 o2 : ImportObj),
      import_obj_from_str s = some o1 → import_obj_from_str s = some o2 →
      ImportObj.eqPy o1 o2 = true ∧ o1.hashPy = o2.hashPy) := by
  refine ⟨?_, ?_, ?_, ?_, ?_⟩
  · intro a b; simp [ImportObj.eqPy]
  · intro a b; simp [ImportObj.eqPy]
  · intro a b; exact ⟨rfl, rfl⟩
  · intro a b h
    cases a <;> cases b <;> simp [ImportObj.eqPy] at h <;>
      simp [ImportObj.hashPy, h]
  · intro s o1 o2 h1 h2
    rw [h1] at h2
    injection h2 with h3
    subst h3
    refine ⟨?_, rfl⟩
    cases o1 <;> simp [ImportObj.eqPy]

/-- C9 witness: the theorem applied to the concrete source text
`import foo` parsed twice. -/
theorem eq_and_hash_by_key_witness :
    ImportObj.eqPy (.Import ⟨[⟨"foo", none⟩]⟩) (.Import ⟨[⟨"foo", none⟩]⟩)
        = true ∧
    ImportObj.hashPy (.Import ⟨[⟨"foo", none⟩]⟩) =
      ImportObj.hashPy (.Import ⟨[⟨"foo", none⟩]⟩) :=
  eq_and_hash_by_key.2.2.2.2 "import foo" _ _ (by decide) (by decide)

/-- C8: `split()` yields one single-name statement of the same concrete
type per alias, in declaration order (from-imports keeping their module
and level); a single-name statement splits to the one-element sequence of
itself; and `import foo, bar` splits to exactly the parses of
`import foo` and `import bar`. -/
theorem split_one_per_name :
    (∀ n : ImportNode, n.names ≠ [] →
      (ImportObj.Import n).split =
        n.names.map (fun a => .Import ⟨[a]⟩)) ∧
    (∀ n : ImportFromNode, n.names ≠ [] →
      (ImportObj.ImportFrom n).split =
        n.names.map (fun a => .ImportFrom ⟨n.module, [a], n.level⟩)) ∧
    (∀ n : ImportNode, n.names.length = 1 →
      (ImportObj.Import n).split = [.Import n]) ∧
    (∀ n : ImportFromNode, n.names.length = 1 →
      (ImportObj.ImportFrom n).split = [.ImportFrom n]) ∧
    ((import_obj_from_str "import foo, bar").map ImportObj.split =
      some [.Import ⟨[⟨"foo", none⟩]⟩, .Import ⟨[⟨"bar", none⟩]⟩]) ∧
    (import_obj_from_str "import foo" = some (.Import ⟨[⟨"foo", none⟩]⟩)) ∧
    (import_obj_from_str "import bar" = some (.Import ⟨[⟨"bar", none⟩]⟩)) := by
  refine ⟨?_, ?_, ?_, ?_, by decide, by decide, by decide⟩
  · intro n h
    obtain ⟨names⟩ := n
    match names with
    | [] => exact absurd rfl h
    | [a] => simp [ImportObj.split, ImportNode.split]
    | a :: b :: t =>
      simp [ImportObj.split, ImportNode.split, Nat.succ_lt_succ,
        List.map_map]
  · intro n h
    obtain ⟨m, names, lvl⟩ := n
    match names with
    | [] => exact absurd rfl h
    | [a] => simp [ImportObj.split, ImportFromNode.split]
    | a :: b :: t =>
      simp [ImportObj.split, ImportFromNode.split, Nat.succ_lt_succ,
        List.map_map]
  · intro n h
    obtain ⟨names⟩ := n
    match names with
    | [a] => simp [ImportObj.split, ImportNode.split]
  · intro n h
    obtain ⟨m, names, lvl⟩ := n
    match names with
    | [a] => simp [ImportObj.split, ImportFromNode.split]

/-- C8 witness: the statement-level clauses applied to the parse of
`import foo, bar`. -/
theorem split_one_per_name_witness :
    (ImportObj.Import ⟨[⟨"foo", none⟩, ⟨"bar", none⟩]⟩).split =
      [.Import ⟨[⟨"foo", none⟩]⟩, .Import ⟨[⟨"bar", none⟩]⟩] :=
  split_one_per_name.1 ⟨[⟨"foo", none⟩, ⟨"bar", none⟩]⟩ (by decide)

/-- C5: within `sort`, a plain-import statement never has final class
`FUTURE` (a `FUTURE` verdict on a plain import is re-bucketed to
`BUILTIN`); consequently, sorting the pair
`from __future__ import absolute_import` / `import __future__` yields —
for every filesystem, stdlib set and settings — the from-form alone in
the `FUTURE` bucket followed by the plain form alone in the `BUILTIN`
bucket. -/
theorem future_plain_import_rebucketed (fs : FS) (stdlib : List String)
    (settings : Settings) :
    (∀ n : ImportNode,
      final_class fs stdlib settings (.Import n) ≠ some .FUTURE) ∧
    import_obj_from_str "from __future__ import absolute_import" =
      some fromFutureObj ∧
    import_obj_from_str "import __future__" = some importFutureObj ∧
    sort fs stdlib [fromFutureObj, importFutureObj] settings =
      some [[fromFutureObj], [importFutureObj]] := by
  refine ⟨?_, by decide, by decide, ?_⟩
  · intro n h
    unfold final_class at h
    rcases hc : classify_base fs stdlib
        (ImportObj.module_base (.Import n)) settings with _ | c
    · rw [hc] at h
      simp at h
    · rw [hc] at h
      cases c <;> simp [ImportObj.isPlain] at h
  · rfl

/-- A filesystem with exactly one regular file `./pkg.py` and a statable
current directory. -/
def fsApp : FS :=
  ⟨fun p => if p = "./pkg.py" then some .reg else none,
   fun _ => none,
   fun p => if p = "." then some (0, 0) else none⟩

/-- C2: for a base name not settled by the static table, the stdlib name
set or the unclassifiable override, `classify_base` answers
`APPLICATION` exactly when the ordered probe `_find_local` over the
filtered application directories reports a hit, and `THIRD_PARTY`
exactly when the probe completes without a hit; an existing-but-empty
same-named directory does not count as a hit, and a same-named `.py`
symlink does not count as a hit, so both fall through. -/
theorem classify_base_local_probe (fs : FS) (stdlib : List String)
    (base : String) (settings : Settings)
    (h1 : _STATIC_CLASSIFICATIONS base = none)
    (h2 : base ∉ stdlib)
    (h3 : base ∉ settings.unclassifiable_application_modules) :
    (classify_base fs stdlib base settings = some .APPLICATION ↔
      _find_local fs (_get_app fs settings.application_directories) base =
        some true) ∧
    (classify_base fs stdlib base settings = some .THIRD_PARTY ↔
      _find_local fs (_get_app fs settings.application_directories) base =
        some false) ∧
    (∀ (g : FS) (p : String),
      g.lstat (joinPath p base) = some .dir →
      g.listdir (joinPath p base) = some [] →
      g.lstat (joinPath p (base ++ ".py")) = none →
      _find_local g [p] base = some false) ∧
    (∀ (g : FS) (p : String),
      g.lstat (joinPath p base) = none →
      g.lstat (joinPath p (base ++ ".py")) = some .symlink →
      _find_local g [p] base = some false) := by
  have hcb : classify_base fs stdlib base settings =
      match _find_local fs (_get_app fs settings.application_directories)
          base with
      | none => none
      | some true => some .APPLICATION
      | some false => some .THIRD_PARTY := by
    unfold classify_base
    rw [h1, if_neg h2, if_neg h3]
  refine ⟨?_, ?_, ?_, ?_⟩
  · rcases hf : _find_local fs
        (_get_app fs settings.application_directories) base with _ | b
    · simp [hcb, hf]
    · cases b <;> simp [hcb, hf]
  · rcases hf : _find_local fs
        (_get_app fs settings.application_directories) base with _ | b
    · simp [hcb, hf]
    · cases b <;> simp [hcb, hf]
  · intro g p hdir hls hpy
    unfold _find_local
    simp only [hdir, hls, hpy]
    simp [_find_local]
  · intro g p hdir hpy
    unfold _find_local
    simp only [hdir, hpy]
    simp

/-- C2 witness: with a single regular file `./pkg.py` in the default
application directory, the probe hits and `classify_base` answers
`APPLICATION`. -/
theorem classify_base_local_probe_witness :
    classify_base fsApp [] "pkg" {} = some Classified.APPLICATION :=
  ((classify_base_local_probe fsApp [] "pkg" {} (by decide) (by decide)
    (by decide)).1).mpr (by decide)

/-- A filesystem with a same-named directory `./pkg` whose directory
listing raises (e.g. permission denied on read). -/
def fsListdirErr : FS :=
  ⟨fun p => if p = "./pkg" then some .dir else none,
   fun _ => none,
   fun _ => some (0, 0)⟩

/-- C7 counterexample: `classify_base` is not raise-free over all
filesystem states — when `os.listdir` fails on an existing same-named
directory the error propagates (modelled as `none`), because
`_find_local` only guards its `lstat` calls. -/
theorem classify_base_raises_on_listdir_error :
    classify_base fsListdirErr [] "pkg" {} = none := by decide

theorem find_local_isSome (fs : FS)
    (hld : ∀ p, (fs.listdir p).isSome) :
    ∀ (dirs : List String) (base : String),
      (_find_local fs dirs base).isSome := by
  intro dirs
  induction dirs with
  | nil => intro base; rfl
  | cons p ps ih =>
    intro base
    unfold _find_local
    rcases hd : fs.lstat (joinPath p base) with _ | m
    · simp only [hd]
      rcases hf : fs.lstat (joinPath p (base ++ ".py")) with _ | m2
      · simpa using ih base
      · simp
    · rcases hl : fs.listdir (joinPath p base) with _ | entries
      · exact absurd (hld (joinPath p base)) (by simp [hl])
      · cases m <;> simp only [hd, hl] <;>
          rcases hf : fs.lstat (joinPath p (base ++ ".py")) with _ | m2 <;>
            first
              | (simp only [hf]; split <;> simp [ih base])
              | (simp only [hf]; simp)
              | simpa using ih base

/-- C7 (amended): `lstat` failures during the probe are treated as
"does not exist"; when `os.listdir` succeeds everywhere, `classify_base`
never raises; a base name that resolves nowhere flows to the
`THIRD_PARTY` default rather than erroring; `sort` never raises when
classification of each statement does not; and construction from text of
the wrong shape fails immediately at construction time. -/
theorem no_raise_semantics :
    (∀ (fs : FS) (dirs : List String) (base : String),
      (∀ p, fs.lstat p = none) → _find_local fs dirs base = some false) ∧
    (∀ fs : FS, (∀ p, (fs.listdir p).isSome) →
      ∀ (stdlib : List String) (base : String) (settings : Settings),
        (classify_base fs stdlib base settings).isSome) ∧
    (∀ (fs : FS) (stdlib : List String) (base : String)
        (settings : Settings),
      _STATIC_CLASSIFICATIONS base = none → base ∉ stdlib →
      base ∉ settings.unclassifiable_application_modules →
      _find_local fs (_get_app fs settings.application_directories) base =
        some false →
      classify_base fs stdlib base settings = some .THIRD_PARTY) ∧
    (∀ (fs : FS) (stdlib : List String) (imports : List ImportObj)
        (settings : Settings),
      (∀ o ∈ imports, (final_class fs stdlib settings o).isSome) →
      (sort fs stdlib imports settings).isSome) ∧
    import_obj_from_str "x = 1" = none := by
  refine ⟨?_, ?_, ?_, ?_, by decide⟩
  · intro fs dirs base hnone
    induction dirs with
    | nil => rfl
    | cons p ps ih =>
      unfold _find_local
      simp only [hnone]
      exact ih
  · intro fs hld stdlib base settings
    unfold classify_base
    rcases hs : _STATIC_CLASSIFICATIONS base with _ | c
    · simp only []
      split
      · simp
      · split
        · simp
        · have := find_local_isSome fs hld
            (_get_app fs settings.application_directories) base
          rcases hf : _find_local fs
              (_get_app fs settings.application_directories) base with _ | b
          · exact absurd this (by simp [hf])
          · cases b <;> simp [hf]
    · simp
  · intro fs stdlib base settings h1 h2 h3 hf
    unfold classify_base
    rw [h1, if_neg h2, if_neg h3, hf]
  · intro fs stdlib imports settings hall
    unfold sort
    rw [if_pos]
    · simp
    · exact List.all_eq_true.mpr fun o ho => by simpa using hall o ho

/-- C7 witness: the amended theorem's clauses applied at concrete
inputs — the probe over an all-erroring filesystem, and a name found
nowhere classified `THIRD_PARTY`. -/
theorem no_raise_semantics_witness :
    _find_local fsEmpty ["."] "x" = some false ∧
    classify_base fsEmpty [] "nowhere" {} = some Classified.THIRD_PARTY :=
  ⟨no_raise_semantics.1 fsEmpty ["."] "x" (fun _ => rfl),
   no_raise_semantics.2.2.1 fsEmpty [] "nowhere" {} (by decide) (by decide)
     (by decide) (by decide)⟩

theorem flatten_filter_not_isEmpty (l : List (List α)) :
    (l.filter (fun x => !x.isEmpty)).flatten = l.flatten := by
  induction l with
  | nil => rfl
  | cons x xs ih =>
    cases x with
    | nil => simpa [List.filter] using ih
    | cons a t => simp [List.filter, ih]

theorem flatten_insertionSort_perm (r : α → α → Prop) [DecidableRel r]
    (cs : List β) (f : β → List α) :
    ((cs.map (fun c => List.insertionSort r (f c))).flatten).Perm
      ((cs.map f).flatten) := by
  induction cs with
  | nil => rfl
  | cons c cs ih =>
    simp only [List.map_cons, List.flatten_cons]
    exact (List.perm_insertionSort r (f c)).append ih

theorem flatten_map_filter_perm [DecidableEq β] (f : α → β) :
    ∀ (cs : List β) (l : List α), cs.Nodup → (∀ x ∈ l, f x ∈ cs) →
      ((cs.map (fun c => l.filter (fun x => decide (f x = c)))).flatten).Perm
        l := by
  intro cs
  induction cs with
  | nil =>
    intro l _ hall
    cases l with
    | nil => rfl
    | cons x t => exact absurd (hall x (by simp)) (by simp)
  | cons c cs ih =>
    intro l hnd hall
    simp only [List.map_cons, List.flatten_cons]
    have hsub : ∀ c2 ∈ cs,
        l.filter (fun x => decide (f x = c2)) =
          (l.filter (fun x => !decide (f x = c))).filter
            (fun x => decide (f x = c2)) := by
      intro c2 hc2
      rw [List.filter_filter]
      apply List.filter_congr
      intro x _
      rcases hx : decide (f x = c2) with _ | _
      · simp
      · have : f x ≠ c := by
          intro hxc
          exact (List.nodup_cons.mp hnd).1
            (hxc ▸ (of_decide_eq_true hx) ▸ hc2)
        simp [this]
    have hmap : cs.map (fun c2 => l.filter (fun x => decide (f x = c2))) =
        cs.map (fun c2 => (l.filter (fun x => !decide (f x = c))).filter
          (fun x => decide (f x = c2))) :=
      List.map_congr_left hsub
    rw [hmap]
    have hih := ih (l.filter (fun x => !decide (f x = c)))
      (List.nodup_cons.mp hnd).2 ?_
    · exact (List.Perm.append_left _ hih).trans
        (List.filter_append_perm (fun x => decide (f x = c)) l)
    · intro x hx
      have hxl := List.mem_filter.mp hx
      have := hall x hxl.1
      rcases List.mem_cons.mp this with h | h
      · exact absurd (decide_eq_true h) (by simpa using hxl.2)
      · exact h

/-- C10: whenever `sort` completes, the concatenation of its buckets is a
permutation of the input statements: each input statement lands in
exactly one bucket and nothing is added, dropped or modified. -/
theorem sort_flatten_perm (fs : FS) (stdlib : List String)
    (imports : List ImportObj) (settings : Settings)
    (out : List (List ImportObj))
    (h : sort fs stdlib imports settings = some out) :
    out.flatten.Perm imports := by
  unfold sort at h
  by_cases hall : imports.all
      (fun o => (final_class fs stdlib settings o).isSome) = true
  · rw [if_pos hall] at h
    injection h with h2
    subst h2
    rw [flatten_filter_not_isEmpty]
    refine (flatten_insertionSort_perm _ _ _).trans ?_
    have hrw : Classified.order.map (fun c => imports.filter
          (fun o => decide (final_class fs stdlib settings o = some c))) =
        (Classified.order.map some).map (fun c2 => imports.filter
          (fun o => decide (final_class fs stdlib settings o = c2))) := by
      rw [List.map_map]
      rfl
    rw [hrw]
    apply flatten_map_filter_perm
    · decide
    · intro x hx
      have hs := List.all_eq_true.mp hall x hx
      rcases hf : final_class fs stdlib settings x with _ | c
      · rw [hf] at hs
        simp at hs
      · cases c <;> simp [Classified.order]
  · rw [if_neg hall] at h
    cases h

/-- C10 witness: the theorem applied to a concrete one-statement sort. -/
theorem sort_flatten_perm_witness :
    ([[importFutureObj]] : List (List ImportObj)).flatten.Perm
      [importFutureObj] :=
  sort_flatten_perm fsEmpty [] [importFutureObj] {} [[importFutureObj]]
    (by decide)

/-- C4: when `sort` completes, every returned bucket is non-empty, every
bucket is sorted ascending by the `sort_key` ordering, and the buckets
are exactly the non-empty per-category groups taken in the fixed order
`FUTURE, BUILTIN, THIRD_PARTY, APPLICATION` (a sublist of
`Classified.order`); the key discriminator puts every plain-import
before every from-import. -/
theorem sort_bucket_structure (fs : FS) (stdlib : List String)
    (imports : List ImportObj) (settings : Settings)
    (out : List (List ImportObj))
    (h : sort fs stdlib imports settings = some out) :
    (∀ l ∈ out, l ≠ []) ∧
    (∀ l ∈ out, List.Sorted sortKeyLeR l) ∧
    (∃ cs : List Classified, cs.Sublist Classified.order ∧
      out = cs.map (fun c => List.insertionSort sortKeyLeR
        (imports.filter (fun o =>
          final_class fs stdlib settings o = some c)))) ∧
    (∀ (a : ImportNode) (b : ImportFromNode),
      sortKeyLe (.Import a) (.ImportFrom b) = true) := by
  unfold sort at h
  by_cases hall : imports.all
      (fun o => (final_class fs stdlib settings o).isSome) = true
  · rw [if_pos hall] at h
    injection h with h2
    subst h2
    refine ⟨?_, ?_, ?_, ?_⟩
    · intro l hl
      have := (List.mem_filter.mp hl).2
      simpa using this
    · intro l hl
      have hm := (List.mem_filter.mp hl).1
      rcases List.mem_map.mp hm with ⟨c, _, hc⟩
      rw [← hc]
      exact List.sorted_insertionSort sortKeyLeR _
    · refine ⟨Classified.order.filter (fun c => !(List.insertionSort
        sortKeyLeR (imports.filter (fun o =>
          final_class fs stdlib settings o = some c))).isEmpty),
        List.filter_sublist _, ?_⟩
      rw [List.filter_map]
      rfl
    · intro a b
      simp [sortKeyLe, ImportObj.sort_key, lexLt,
        show strLt "1" "0" = false from by decide,
        show strLt "0" "1" = true from by decide]
  · rw [if_neg hall] at h
    cases h

/-- C4 witness: the non-emptiness clause of the theorem applied to a
concrete one-statement sort. -/
theorem sort_bucket_structure_witness :
    ([importFutureObj] : List ImportObj) ≠ [] :=
  (sort_bucket_structure fsEmpty [] [importFutureObj] {}
    [[importFutureObj]] (by decide)).1 [importFutureObj] (by decide)

/-! ## Round-trip infrastructure for C6 -/

/-- An alias as the parser produces it: a usable name token, and an
alias that, when present, is a usable name token (in particular
non-empty). -/
def ValidAlias (a : Alias) : Prop :=
  isNameTok a.name = true ∧ ∀ x, a.asname = some x → isNameTok x = true

/-- The display forms of a statement's aliases, in statement order. -/
def displays : ImportObj → List String
  | .Import n => n.names.map _ast_alias_to_s
  | .ImportFrom n => n.names.map _ast_alias_to_s

/-- The token run of one alias display form. -/
def displayToks (a : Alias) : List String :=
  if a.asname.getD "" = "" then [a.name] else [a.name, "as", a.asname.getD ""]

theorem isNameTok_chars (t : String) (h : isNameTok t = true) :
    ∀ c ∈ t.data, isWsChar c = false ∧ c ≠ ',' := by
  intro c hc
  simp only [isNameTok, Bool.and_eq_true, List.all_eq_true] at h
  have := h.2 c hc
  simp only [Bool.and_eq_true, Bool.not_eq_true'] at this
  exact ⟨this.1, by simpa using this.2⟩

theorem tokenizeAux_word (w : List Char)
    (hw : ∀ c ∈ w, isWsChar c = false ∧ c ≠ ',') :
    ∀ cs acc, tokenizeAux (w ++ cs) acc = tokenizeAux cs (w.reverse ++ acc) := by
  induction w with
  | nil => intro cs acc; simp
  | cons c w ih =>
    intro cs acc
    have hc := hw c (by simp)
    show tokenizeAux (c :: (w ++ cs)) acc = _
    conv_lhs => unfold tokenizeAux
    rw [if_neg (by simp [hc.1]), if_neg hc.2,
      ih (fun x hx => hw x (by simp [hx])) cs (c :: acc)]
    simp

theorem tokenizeAux_space (cs : List Char) (acc : List Char) :
    tokenizeAux (' ' :: cs) acc =
      (if acc.isEmpty then [] else [⟨acc.reverse⟩]) ++ tokenizeAux cs [] := by
  conv_lhs => unfold tokenizeAux
  rw [if_pos (by decide)]

theorem tokenizeAux_comma (cs : List Char) (acc : List Char) :
    tokenizeAux (',' :: cs) acc =
      (if acc.isEmpty then [] else [⟨acc.reverse⟩]) ++
        "," :: tokenizeAux cs [] := by
  conv_lhs => unfold tokenizeAux
  rw [if_neg (by decide), if_pos rfl]

theorem tokenizeAux_newline (acc : List Char) :
    tokenizeAux ['\n'] acc =
      (if acc.isEmpty then [] else [⟨acc.reverse⟩]) := by
  conv_lhs => unfold tokenizeAux
  rw [if_pos (by decide)]
  simp [tokenizeAux]

theorem isNameTok_data_ne_nil (t : String) (h : isNameTok t = true) :
    t.data ≠ [] := by
  simp only [isNameTok, Bool.and_eq_true, Bool.not_eq_true'] at h
  simpa using h.1.1.1.1

theorem isNameTok_ne_empty (t : String) (h : isNameTok t = true) :
    t ≠ "" := fun he => isNameTok_data_ne_nil t h (by rw [he])

theorem emit_tok (w : List Char) (hw : w ≠ []) :
    (if (w.reverse ++ ([] : List Char)).isEmpty = true then ([] : List String)
      else [⟨(w.reverse ++ ([] : List Char)).reverse⟩]) = [⟨w⟩] := by
  simp [hw]

theorem display_of_none (a : Alias) (h : a.asname = none) :
    _ast_alias_to_s a = a.name := by
  simp [_ast_alias_to_s, h]

theorem display_of_some (a : Alias) (x : String) (h : a.asname = some x)
    (hx : isNameTok x = true) :
    _ast_alias_to_s a = a.name ++ " as " ++ x := by
  simp [_ast_alias_to_s, h, isNameTok_ne_empty x hx]

theorem tokenizeAux_display_nl (a : Alias) (hva : ValidAlias a) :
    tokenizeAux ((_ast_alias_to_s a).data ++ ['\n']) [] = displayToks a := by
  rcases ha : a.asname with _ | x
  · rw [display_of_none a ha,
      tokenizeAux_word a.name.data (isNameTok_chars a.name hva.1),
      tokenizeAux_newline,
      emit_tok a.name.data (isNameTok_data_ne_nil a.name hva.1)]
    simp [displayToks, ha]
  · have hx := hva.2 x ha
    rw [display_of_some a x ha hx]
    have hdata : (a.name ++ " as " ++ x).data ++ ['\n'] =
        a.name.data ++
          (' ' :: ('a' :: 's' :: (' ' :: (x.data ++ ['\n'])))) := by
      simp [String.data_append]
    rw [hdata, tokenizeAux_word a.name.data (isNameTok_chars a.name hva.1),
      tokenizeAux_space,
      emit_tok a.name.data (isNameTok_data_ne_nil a.name hva.1)]
    rw [show ('a' :: 's' :: (' ' :: (x.data ++ ['\n']))) =
        ['a', 's'] ++ (' ' :: (x.data ++ ['\n'])) from rfl,
      tokenizeAux_word ['a', 's'] (by decide),
      tokenizeAux_space,
      emit_tok ['a', 's'] (by decide),
      tokenizeAux_word x.data (isNameTok_chars x hx),
      tokenizeAux_newline,
      emit_tok x.data (isNameTok_data_ne_nil x hx)]
    simp [displayToks, ha, isNameTok_ne_empty x hx]

theorem tokenizeAux_display_comma (a : Alias) (hva : ValidAlias a)
    (rest : List Char) :
    tokenizeAux ((_ast_alias_to_s a).data ++ (',' :: ' ' :: rest)) [] =
      displayToks a ++ "," :: tokenizeAux rest [] := by
  rcases ha : a.asname with _ | x
  · rw [display_of_none a ha,
      tokenizeAux_word a.name.data (isNameTok_chars a.name hva.1),
      tokenizeAux_comma,
      emit_tok a.name.data (isNameTok_data_ne_nil a.name hva.1),
      tokenizeAux_space]
    simp [displayToks, ha]
  · have hx := hva.2 x ha
    rw [display_of_some a x ha hx]
    have hdata : (a.name ++ " as " ++ x).data ++ (',' :: ' ' :: rest) =
        a.name.data ++
          (' ' :: ('a' :: 's' :: (' ' :: (x.data ++ (',' :: ' ' :: rest))))) := by
      simp [String.data_append]
    rw [hdata, tokenizeAux_word a.name.data (isNameTok_chars a.name hva.1),
      tokenizeAux_space,
      emit_tok a.name.data (isNameTok_data_ne_nil a.name hva.1)]
    rw [show ('a' :: 's' :: (' ' :: (x.data ++ (',' :: ' ' :: rest)))) =
        ['a', 's'] ++ (' ' :: (x.data ++ (',' :: ' ' :: rest))) from rfl,
      tokenizeAux_word ['a', 's'] (by decide),
      tokenizeAux_space,
      emit_tok ['a', 's'] (by decide),
      tokenizeAux_word x.data (isNameTok_chars x hx),
      tokenizeAux_comma,
      emit_tok x.data (isNameTok_data_ne_nil x hx),
      tokenizeAux_space]
    simp [displayToks, ha, isNameTok_ne_empty x hx]

theorem parseAliases_single (a : Alias) (hva : ValidAlias a) :
    parseAliases (displayToks a) = some [a] := by
  rcases ha : a.asname with _ | x
  · simp [displayToks, ha, parseAliases, hva.1]
    rw [← ha]
  · have hx := hva.2 x ha
    simp [displayToks, ha, isNameTok_ne_empty x hx, parseAliases, hva.1, hx]
    rw [← ha]

theorem parseAliases_chain (a : Alias) (hva : ValidAlias a)
    (T : List String) :
    parseAliases (displayToks a ++ "," :: T) =
      (parseAliases T).map (a :: ·) := by
  rcases ha : a.asname with _ | x
  · simp only [displayToks, ha, Option.getD_none, if_pos rfl,
      List.cons_append, List.nil_append]
    conv_lhs => unfold parseAliases
    simp [hva.1, ha]
    rw [← ha]
  · have hx := hva.2 x ha
    simp only [displayToks, ha, Option.getD_some,
      if_neg (isNameTok_ne_empty x hx), List.cons_append, List.nil_append]
    conv_lhs => unfold parseAliases
    simp [hva.1, hx, ha]
    rw [← ha]

theorem parse_commaJoin_aliases :
    ∀ ns : List Alias, ns ≠ [] → (∀ a ∈ ns, ValidAlias a) →
      parseAliases (tokenizeAux
        ((commaJoin (ns.map _ast_alias_to_s)).data ++ ['\n']) []) =
        some ns := by
  intro ns
  induction ns with
  | nil => intro h; exact absurd rfl h
  | cons a ns ih =>
    intro _ hall
    have hva : ValidAlias a := hall a (by simp)
    cases ns with
    | nil =>
      simp only [List.map_cons, List.map_nil, commaJoin]
      rw [tokenizeAux_display_nl a hva, parseAliases_single a hva]
    | cons b ns2 =>
      have hdata : (commaJoin ((a :: b :: ns2).map _ast_alias_to_s)).data ++
          ['\n'] =
          (_ast_alias_to_s a).data ++ (',' :: ' ' ::
            ((commaJoin ((b :: ns2).map _ast_alias_to_s)).data ++ ['\n'])) := by
        simp only [List.map_cons, commaJoin, String.data_append]
        simp
      rw [hdata, tokenizeAux_display_comma a hva, parseAliases_chain a hva,
        ih (by simp) (fun x hx => hall x (by simp [hx]))]
      rfl

theorem orderedInsert_map {α β : Type} (f : α → β) (r : β → β → Prop)
    [DecidableRel r] (a : α) (l : List α) :
    List.orderedInsert r (f a) (l.map f) =
      (List.orderedInsert (fun x y => r (f x) (f y)) a l).map f := by
  induction l with
  | nil => rfl
  | cons b l ih =>
    simp only [List.map_cons, List.orderedInsert]
    by_cases h : r (f a) (f b)
    · rw [if_pos h, if_pos h]
      simp
    · rw [if_neg h, if_neg h]
      simp [ih]

theorem insertionSort_map {α β : Type} (f : α → β) (r : β → β → Prop)
    [DecidableRel r] (l : List α) :
    List.insertionSort r (l.map f) =
      (List.insertionSort (fun x y => r (f x) (f y)) l).map f := by
  induction l with
  | nil => rfl
  | cons a l ih =>
    simp only [List.map_cons, List.insertionSort, ih]
    exact orderedInsert_map f r a _

theorem parseAliases_wf :
    ∀ (toks : List String) (ns : List Alias), parseAliases toks = some ns →
      ns ≠ [] ∧ ∀ a ∈ ns, ValidAlias a := by
  intro toks
  induction toks using parseAliases.induct with
  | case1 n h =>
    intro ns hp
    simp [parseAliases, h] at hp
    subst hp
    refine ⟨by simp, ?_⟩
    intro a ha
    simp at ha
    subst ha
    exact ⟨h, by simp⟩
  | case2 n h =>
    intro ns hp
    simp [parseAliases, h] at hp
  | case3 n a h =>
    intro ns hp
    simp [parseAliases, h] at hp
    subst hp
    rcases Bool.and_eq_true _ _ |>.mp h with ⟨h1, h2⟩
    refine ⟨by simp, ?_⟩
    intro x hx
    simp at hx
    subst hx
    exact ⟨h1, by intro y hy; injection hy with hy2; rw [← hy2]; exact h2⟩
  | case4 n a h =>
    intro ns hp
    simp [parseAliases, h] at hp
  | case5 n a rest h ih =>
    intro ns hp
    simp only [parseAliases, h, if_pos] at hp
    rcases Option.map_eq_some'.mp hp with ⟨ns', hns', hcons⟩
    subst hcons
    rcases Bool.and_eq_true _ _ |>.mp h with ⟨h1, h2⟩
    refine ⟨by simp, ?_⟩
    intro x hx
    rcases List.mem_cons.mp hx with hx | hx
    · subst hx
      exact ⟨h1, by intro y hy; injection hy with hy2; rw [← hy2]; exact h2⟩
    · exact (ih ns' hns').2 x hx
  | case6 n a rest h =>
    intro ns hp
    simp [parseAliases, h] at hp
  | case7 n rest h ih =>
    intro ns hp
    simp only [parseAliases, h, if_pos] at hp
    rcases Option.map_eq_some'.mp hp with ⟨ns', hns', hcons⟩
    subst hcons
    refine ⟨by simp, ?_⟩
    intro x hx
    rcases List.mem_cons.mp hx with hx | hx
    · subst hx
      exact ⟨h, by simp⟩
    · exact (ih ns' hns').2 x hx
  | case8 n rest h =>
    intro ns hp
    simp [parseAliases, h] at hp
  | case9 t h1 h2 h3 h4 =>
    intro ns hp
    revert hp
    unfold parseAliases
    split
    · exact absurd rfl (by intro hh; exact h1 _ hh)
    · exact absurd rfl (by intro hh; exact h2 _ _ hh)
    · exact absurd rfl (by intro hh; exact h3 _ _ _ hh)
    · exact absurd rfl (by intro hh; exact h4 _ _ hh)
    · intro hp
      cases hp

theorem takeWhile_replicate_append {p : Char → Bool} {a : Char}
    (hp : p a = true) (k : Nat) (xs : List Char) :
    (List.replicate k a ++ xs).takeWhile p =
      List.replicate k a ++ xs.takeWhile p := by
  induction k with
  | zero => simp
  | succ k ih => simp [List.replicate_succ, List.takeWhile_cons, hp, ih]

theorem dropWhile_replicate_append {p : Char → Bool} {a : Char}
    (hp : p a = true) (k : Nat) (xs : List Char) :
    (List.replicate k a ++ xs).dropWhile p = xs.dropWhile p := by
  induction k with
  | zero => simp
  | succ k ih => simp [List.replicate_succ, List.dropWhile_cons, hp, ih]

theorem takeWhile_eq_nil_of_head {p : Char → Bool} (xs : List Char)
    (h : ∀ c, xs.head? = some c → p c = false) : xs.takeWhile p = [] := by
  cases xs with
  | nil => rfl
  | cons c cs => simp [List.takeWhile_cons, h c rfl]

theorem dropWhile_eq_self_of_head {p : Char → Bool} (xs : List Char)
    (h : ∀ c, xs.head? = some c → p c = false) : xs.dropWhile p = xs := by
  cases xs with
  | nil => rfl
  | cons c cs => simp [List.dropWhile_cons, h c rfl]

theorem head?_dropWhile {p : Char → Bool} :
    ∀ (xs : List Char) (c : Char), (xs.dropWhile p).head? = some c →
      p c = false := by
  intro xs
  induction xs with
  | nil => intro c h; cases h
  | cons x xs ih =>
    intro c h
    rw [List.dropWhile_cons] at h
    by_cases hx : p x = true
    · rw [if_pos hx] at h
      exact ih c h
    · rw [if_neg hx] at h
      injection h with h2
      subst h2
      simpa using hx

theorem parseFromModule_fromModule (n : ImportFromNode)
    (hwf1 : n.module = none → 0 < n.level)
    (hwf2 : ∀ m, n.module = some m →
      isNameTok m = true ∧ m.data.head? ≠ some '.') :
    parseFromModule (fromModule n) = some (n.level, n.module) := by
  rcases hm : n.module with _ | m
  · have hl := hwf1 hm
    have hdata : (fromModule n).data = List.replicate n.level '.' := by
      simp [fromModule, hm, String.data_append]
    unfold parseFromModule
    rw [hdata]
    rw [show List.replicate n.level '.' =
        List.replicate n.level '.' ++ ([] : List Char) by simp,
      takeWhile_replicate_append (by simp) n.level,
      dropWhile_replicate_append (by simp) n.level]
    have hz : n.level ≠ 0 := by omega
    simp [hz, hm]
  · have hmm := hwf2 m hm
    have hhead : ∀ c, m.data.head? = some c → decide (c = '.') = false := by
      intro c hc
      have : c ≠ '.' := by
        intro he
        exact hmm.2 (he ▸ hc)
      simpa using this
    have hdata : (fromModule n).data =
        List.replicate n.level '.' ++ m.data := by
      simp [fromModule, hm, String.data_append]
    unfold parseFromModule
    rw [hdata, takeWhile_replicate_append (by simp) n.level,
      dropWhile_replicate_append (by simp) n.level,
      takeWhile_eq_nil_of_head m.data hhead,
      dropWhile_eq_self_of_head m.data hhead]
    have hme : (⟨m.data⟩ : String) = m := rfl
    rw [hme]
    simp [isNameTok_ne_empty m hmm.1, hmm.1, hm]

theorem parseFromModule_wf (t : String) (lvl : Nat) (mod : Option String)
    (h : parseFromModule t = some (lvl, mod)) :
    (mod = none → 0 < lvl) ∧
      (∀ m, mod = some m →
        isNameTok m = true ∧ m.data.head? ≠ some '.') := by
  unfold parseFromModule at h
  by_cases he : (⟨t.data.dropWhile (· = '.')⟩ : String) = ""
  · rw [if_pos he] at h
    by_cases hz : (t.data.takeWhile (· = '.')).length = 0
    · rw [if_pos hz] at h
      cases h
    · rw [if_neg hz] at h
      injection h with h2
      injection h2 with h3 h4
      subst h3
      subst h4
      exact ⟨fun _ => by omega, fun m hm => Option.noConfusion hm⟩
  · rw [if_neg he] at h
    by_cases hn : isNameTok ⟨t.data.dropWhile (· = '.')⟩ = true
    · rw [if_pos hn] at h
      injection h with h2
      injection h2 with h3 h4
      subst h3
      subst h4
      refine ⟨fun hc => Option.noConfusion hc, fun m hm => ?_⟩
      injection hm with hm2
      subst hm2
      refine ⟨hn, ?_⟩
      intro hc
      have := head?_dropWhile (t.data) '.' hc
      simp at this
    · rw [if_neg hn] at h
      cases h

theorem fromModule_chars (n : ImportFromNode)
    (_hwf1 : n.module = none → 0 < n.level)
    (hwf2 : ∀ m, n.module = some m →
      isNameTok m = true ∧ m.data.head? ≠ some '.') :
    ∀ c ∈ (fromModule n).data, isWsChar c = false ∧ c ≠ ',' := by
  intro c hc
  rcases hm : n.module with _ | m
  · simp only [fromModule, hm, Option.getD_none, String.data_append] at hc
    have : c = '.' := by
      rcases List.mem_append.mp hc with h | h
      · exact List.eq_of_mem_replicate h
      · cases h
    subst this
    exact ⟨rfl, by decide⟩
  · have hmm := hwf2 m hm
    simp only [fromModule, hm, Option.getD_some, String.data_append] at hc
    rcases List.mem_append.mp hc with h | h
    · have : c = '.' := List.eq_of_mem_replicate h
      subst this
      exact ⟨rfl, by decide⟩
    · exact isNameTok_chars m hmm.1 c h

theorem fromModule_data_ne_nil (n : ImportFromNode)
    (hwf1 : n.module = none → 0 < n.level)
    (hwf2 : ∀ m, n.module = some m →
      isNameTok m = true ∧ m.data.head? ≠ some '.') :
    (fromModule n).data ≠ [] := by
  rcases hm : n.module with _ | m
  · have hl := hwf1 hm
    simp only [fromModule, hm, Option.getD_none, String.data_append]
    simp [List.append_eq_nil]
    omega
  · have hmm := hwf2 m hm
    simp only [fromModule, hm, Option.getD_some, String.data_append]
    simp [List.append_eq_nil]
    intro _
    exact isNameTok_data_ne_nil m hmm.1

theorem tokenize_import_render (X : String) :
    tokenize ("import " ++ X ++ "\n") =
      "import" :: tokenizeAux (X.data ++ ['\n']) [] := by
  unfold tokenize
  have hdata : ("import " ++ X ++ "\n").data =
      "import".data ++ (' ' :: (X.data ++ ['\n'])) := by
    simp only [String.data_append, List.append_assoc]
    rfl
  rw [hdata, tokenizeAux_word "import".data (by decide), tokenizeAux_space,
    emit_tok "import".data (by decide)]
  rfl

theorem tokenize_from_render (W X : String)
    (hW : ∀ c ∈ W.data, isWsChar c = false ∧ c ≠ ',')
    (hWne : W.data ≠ []) :
    tokenize ("from " ++ W ++ " import " ++ X ++ "\n") =
      "from" :: W :: "import" :: tokenizeAux (X.data ++ ['\n']) [] := by
  unfold tokenize
  have hdata : ("from " ++ W ++ " import " ++ X ++ "\n").data =
      "from".data ++ (' ' :: (W.data ++ (' ' ::
        ("import".data ++ (' ' :: (X.data ++ ['\n'])))))) := by
    simp only [String.data_append, List.append_assoc]
    rfl
  rw [hdata, tokenizeAux_word "from".data (by decide), tokenizeAux_space,
    emit_tok "from".data (by decide),
    tokenizeAux_word W.data hW, tokenizeAux_space, emit_tok W.data hWne,
    tokenizeAux_word "import".data (by decide), tokenizeAux_space,
    emit_tok "import".data (by decide)]
  rfl

theorem import_obj_from_str_import_toks (s : String) (T : List String)
    (h : tokenize s = "import" :: T) :
    import_obj_from_str s =
      (parseAliases T).map (fun ns => ImportObj.Import ⟨ns⟩) := by
  unfold import_obj_from_str
  rw [h]
  rfl

theorem import_obj_from_str_from_toks (s W : String) (T : List String)
    (h : tokenize s = "from" :: W :: "import" :: T) :
    import_obj_from_str s =
      (match parseFromModule W, parseAliases T with
        | some (lvl, mod), some ns => some (.ImportFrom ⟨mod, ns, lvl⟩)
        | _, _ => none) := by
  unfold import_obj_from_str
  rw [h]
  rfl

/-- C6: for every source string that constructs successfully, rendering
the constructed statement parses back (round trip) to a statement with
the same shape (plain/from, module and level preserved) whose display
forms are exactly the alphabetically sorted permutation of the original
display forms; re-rendering that statement reproduces the same text
(idempotence of `render` after `construct`); and the rendered text ends
in one newline.  Multi-name clauses are rendered sorted by the
alias-aware display form and joined with `", "` by `_format_import_import`
/ `_format_from_import`. -/
theorem render_construct_roundtrip (s : String) (obj : ImportObj)
    (h : import_obj_from_str s = some obj) :
    ∃ obj2 : ImportObj,
      import_obj_from_str (to_text obj) = some obj2 ∧
      to_text obj2 = to_text obj ∧
      displays obj2 = List.insertionSort strLeR (displays obj) ∧
      (displays obj2).Perm (displays obj) ∧
      List.Sorted strLeR (displays obj2) ∧
      obj2.isPlain = obj.isPlain ∧
      (∀ nf : ImportFromNode, obj = .ImportFrom nf →
        ∃ nf2 : ImportFromNode, obj2 = .ImportFrom nf2 ∧
          nf2.module = nf.module ∧ nf2.level = nf.level) ∧
      (to_text obj).data.getLast? = some '\n' := by
  revert h
  unfold import_obj_from_str
  split
  · rename_i T htokS
    intro h
    rcases Option.map_eq_some'.mp h with ⟨ns, hp, hobj⟩
    subst hobj
    obtain ⟨hne, hval⟩ := parseAliases_wf T ns hp
    set ns2 := List.insertionSort
      (fun x y => strLeR (_ast_alias_to_s x) (_ast_alias_to_s y)) ns with hns2
    have hperm : ns2.Perm ns := List.perm_insertionSort _ ns
    have hval2 : ∀ a ∈ ns2, ValidAlias a := fun a ha =>
      hval a (hperm.mem_iff.mp ha)
    have hne2 : ns2 ≠ [] := by
      intro hnil
      rw [hnil] at hperm
      exact hne (List.Perm.eq_nil hperm.symm)
    have hmap : List.insertionSort strLeR (ns.map _ast_alias_to_s) =
        ns2.map _ast_alias_to_s :=
      insertionSort_map _ast_alias_to_s strLeR ns
    have hto : to_text (ImportObj.Import ⟨ns⟩) =
        "import " ++ commaJoin (ns2.map _ast_alias_to_s) ++ "\n" := by
      simp only [to_text, _format_import_import]
      rw [hmap]
    have htok2 : tokenize (to_text (ImportObj.Import ⟨ns⟩)) =
        "import" :: tokenizeAux
          ((commaJoin (ns2.map _ast_alias_to_s)).data ++ ['\n']) [] := by
      rw [hto]
      exact tokenize_import_render _
    have hparse := parse_commaJoin_aliases ns2 hne2 hval2
    have hsorted : List.Sorted strLeR (ns2.map _ast_alias_to_s) := by
      rw [← hmap]
      exact List.sorted_insertionSort strLeR _
    have hmain : import_obj_from_str (to_text (ImportObj.Import ⟨ns⟩)) =
        some (ImportObj.Import ⟨ns2⟩) := by
      rw [import_obj_from_str_import_toks _ _ htok2, hparse]
      rfl
    refine ⟨ImportObj.Import ⟨ns2⟩, hmain, ?_, ?_, ?_, ?_, rfl, ?_, ?_⟩
    · rw [hto]
      simp only [to_text, _format_import_import]
      rw [List.Sorted.insertionSort_eq hsorted]
    · simp only [displays]
      exact hmap.symm
    · simp only [displays]
      exact hperm.map _ast_alias_to_s
    · simp only [displays]
      exact hsorted
    · intro nf habs
      simp at habs
    · rw [hto]
      rw [show ("import " ++ commaJoin (ns2.map _ast_alias_to_s) ++ "\n") =
        (("import " ++ commaJoin (ns2.map _ast_alias_to_s)) ++ "\n") from rfl,
        String.data_append]
      exact List.getLast?_concat _
  · rename_i W T htokS
    intro h
    split at h
    · rename_i lvl mod ns hpm hpa
      injection h with hobj
      subst hobj
      obtain ⟨hne, hval⟩ := parseAliases_wf T ns hpa
      have wfm := parseFromModule_wf W lvl mod hpm
      set ns2 := List.insertionSort
        (fun x y => strLeR (_ast_alias_to_s x) (_ast_alias_to_s y)) ns with hns2
      have hperm : ns2.Perm ns := List.perm_insertionSort _ ns
      have hval2 : ∀ a ∈ ns2, ValidAlias a := fun a ha =>
        hval a (hperm.mem_iff.mp ha)
      have hne2 : ns2 ≠ [] := by
        intro hnil
        rw [hnil] at hperm
        exact hne (List.Perm.eq_nil hperm.symm)
      have hmap : List.insertionSort strLeR (ns.map _ast_alias_to_s) =
          ns2.map _ast_alias_to_s :=
        insertionSort_map _ast_alias_to_s strLeR ns
      have hW := fromModule_chars ⟨mod, ns, lvl⟩ wfm.1 wfm.2
      have hWne := fromModule_data_ne_nil ⟨mod, ns, lvl⟩ wfm.1 wfm.2
      have hto : to_text (ImportObj.ImportFrom ⟨mod, ns, lvl⟩) =
          "from " ++ fromModule ⟨mod, ns, lvl⟩ ++ " import " ++
            commaJoin (ns2.map _ast_alias_to_s) ++ "\n" := by
        simp only [to_text, _format_from_import]
        rw [hmap]
      have htok2 : tokenize (to_text (ImportObj.ImportFrom ⟨mod, ns, lvl⟩)) =
          "from" :: fromModule ⟨mod, ns, lvl⟩ :: "import" :: tokenizeAux
            ((commaJoin (ns2.map _ast_alias_to_s)).data ++ ['\n']) [] := by
        rw [hto]
        exact tokenize_from_render _ _ hW hWne
      have hparse := parse_commaJoin_aliases ns2 hne2 hval2
      have hpm2 := parseFromModule_fromModule ⟨mod, ns, lvl⟩ wfm.1 wfm.2
      have hsorted : List.Sorted strLeR (ns2.map _ast_alias_to_s) := by
        rw [← hmap]
        exact List.sorted_insertionSort strLeR _
      have hmain : import_obj_from_str
          (to_text (ImportObj.ImportFrom ⟨mod, ns, lvl⟩)) =
          some (ImportObj.ImportFrom ⟨mod, ns2, lvl⟩) := by
        rw [import_obj_from_str_from_toks _ _ _ htok2, hparse, hpm2]
      refine ⟨ImportObj.ImportFrom ⟨mod, ns2, lvl⟩, hmain, ?_, ?_, ?_, ?_,
        rfl, ?_, ?_⟩
      · rw [hto]
        simp only [to_text, _format_from_import]
        rw [List.Sorted.insertionSort_eq hsorted]
        rfl
      · simp only [displays]
        exact hmap.symm
      · simp only [displays]
        exact hperm.map _ast_alias_to_s
      · simp only [displays]
        exact hsorted
      · intro nf habs
        injection habs with hnf
        refine ⟨⟨mod, ns2, lvl⟩, rfl, ?_, ?_⟩
        · rw [← hnf]
        · rw [← hnf]
      · rw [hto]
        rw [show ("from " ++ fromModule ⟨mod, ns, lvl⟩ ++ " import " ++
            commaJoin (ns2.map _ast_alias_to_s) ++ "\n") =
          (("from " ++ fromModule ⟨mod, ns, lvl⟩ ++ " import " ++
            commaJoin (ns2.map _ast_alias_to_s)) ++ "\n") from rfl,
          String.data_append]
        exact List.getLast?_concat _
    · rename_i hcatch
      cases h
  · intro h
    cases h

/-- C6 witness: the theorem applied to the concrete source
`import b, a`. -/
theorem render_construct_roundtrip_witness :
    ∃ obj2 : ImportObj,
      import_obj_from_str (to_text (ImportObj.Import
        ⟨[⟨"b", none⟩, ⟨"a", none⟩]⟩)) = some obj2 ∧
      to_text obj2 = to_text (ImportObj.Import
        ⟨[⟨"b", none⟩, ⟨"a", none⟩]⟩) ∧
      displays obj2 = List.insertionSort strLeR (displays (ImportObj.Import
        ⟨[⟨"b", none⟩, ⟨"a", none⟩]⟩)) ∧
      (displays obj2).Perm (displays (ImportObj.Import
        ⟨[⟨"b", none⟩, ⟨"a", none⟩]⟩)) ∧
      List.Sorted strLeR (displays obj2) ∧
      obj2.isPlain = (ImportObj.Import
        ⟨[⟨"b", none⟩, ⟨"a", none⟩]⟩).isPlain ∧
      (∀ nf : ImportFromNode, ImportObj.Import
          ⟨[⟨"b", none⟩, ⟨"a", none⟩]⟩ = .ImportFrom nf →
        ∃ nf2 : ImportFromNode, obj2 = .ImportFrom nf2 ∧
          nf2.module = nf.module ∧ nf2.level = nf.level) ∧
      (to_text (ImportObj.Import
        ⟨[⟨"b", none⟩, ⟨"a", none⟩]⟩)).data.getLast? = some '\n' :=
  render_construct_roundtrip "import b, a"
    (ImportObj.Import ⟨[⟨"b", none⟩, ⟨"a", none⟩]⟩) (by decide)
